import Mathlib

/-!
Verification development for the `qlsc` pixelization and spatial index
(`source/qlsc/qlsc_base.py`).

The Python layer under verification orchestrates an opaque native geometry
kernel (`_q3c_wrapper`, C code, not part of the verified sources).  The kernel
is modelled here in two ways:

* for claims that only concern the Python layer's control flow (validation,
  batching, filtering), the kernel entry points are universally quantified
  function parameters;
* for claims that need actual kernel guarantees (the pixel round trip, face
  numbers), a concrete rational model `q3cModel` of the quadrilateralized
  spherical cube is constructed: six faces, `nside = 2^bin_level` cells per
  face edge, pixel ids encoding face plus interleaved-bit subdivision path,
  and exact (rational) face charts that are mutually inverse.

Angles are rationals (degrees), as the float arithmetic of the original is
out of scope; all numeric definitions are executable.
-/

/-- Python exception classes raised by the code under verification.
The spec's `DomainError` / `ConfigurationError` / `ArgumentError` are all
`ValueError` in the code. -/
inductive PyErr where
  | valueError
  | typeError
  | nameError
  | notImplementedError
  deriving DecidableEq, Repr

/-- Floor of a rational, computable (Mathlib's `Int.floor` instance does not
reduce in the kernel). -/
def ratFloor (q : ℚ) : ℤ := q.num / q.den

theorem ratFloor_eq_floor (q : ℚ) : ratFloor q = ⌊q⌋ := Rat.floor_def.symm

/-- Reduce an angle in degrees into `[0, 360)` (the C kernel unwraps right
ascension this way; also used by the angle normalization helper). -/
def wrap360 (r : ℚ) : ℚ := r - 360 * ratFloor (r / 360)

theorem wrap360_nonneg (r : ℚ) : 0 ≤ wrap360 r := by
  have h := Int.floor_le (r / 360)
  have h' := mul_le_mul_of_nonneg_left h (by norm_num : (0:ℚ) ≤ 360)
  have h2 : (360:ℚ) * (r / 360) = r := by ring
  rw [wrap360, ratFloor_eq_floor]
  linarith

theorem wrap360_lt (r : ℚ) : wrap360 r < 360 := by
  have h := Int.lt_floor_add_one (r / 360)
  have h' := mul_lt_mul_of_pos_left h (by norm_num : (0:ℚ) < 360)
  have h2 : (360:ℚ) * (r / 360) = r := by ring
  rw [wrap360, ratFloor_eq_floor]
  linarith

theorem wrap360_eq_self {r : ℚ} (h0 : 0 ≤ r) (h1 : r < 360) : wrap360 r = r := by
  have : ⌊r / 360⌋ = 0 := by
    rw [Int.floor_eq_zero_iff]
    constructor
    · positivity
    · rw [div_lt_one (by norm_num : (0:ℚ) < 360)]; simpa using h1
  rw [wrap360, ratFloor_eq_floor, this]
  push_cast
  ring

theorem wrap360_sub_int (r : ℚ) (k : ℤ) : wrap360 (r - 360 * k) = wrap360 r := by
  rw [wrap360, wrap360, ratFloor_eq_floor, ratFloor_eq_floor]
  have : (r - 360 * k) / 360 = r / 360 + (-k : ℤ) := by push_cast; field_simp; ring
  rw [this, Int.floor_add_int]
  push_cast
  ring

/-- Point of the unit square's boundary (sup norm 1) at square-perimeter
angle `u ∈ [0,8)`; piecewise linear, counterclockwise from `(1,0)`. -/
def sqpoint (u : ℚ) : ℚ × ℚ :=
  if u < 1 then (1, u)
  else if u < 3 then (2 - u, 1)
  else if u < 5 then (-1, 4 - u)
  else if u < 7 then (u - 6, -1)
  else (1, u - 8)

/-- Inverse of `sqpoint` on points with sup norm exactly 1. -/
def sqangle (x y : ℚ) : ℚ :=
  if x = 1 ∧ 0 ≤ y then y
  else if y = 1 then 2 - x
  else if x = -1 then 4 - y
  else if y = -1 then 6 + x
  else 8 + y

theorem sqangle_nonneg {x y : ℚ} (hx : |x| ≤ 1) (hy : |y| ≤ 1) :
    0 ≤ sqangle x y := by
  rw [abs_le] at hx hy
  rw [sqangle]
  split_ifs <;> linarith

theorem sqangle_lt_eight {x y : ℚ} (hx : |x| ≤ 1) (hy : |y| ≤ 1)
    (hmax : max |x| |y| = 1) : sqangle x y < 8 := by
  rw [abs_le] at hx hy
  rw [sqangle]
  split_ifs with h1 h2 h3 h4
  · linarith [hy.2]
  · linarith [hx.1]
  · linarith [hy.1]
  · linarith [hx.2]
  · -- remaining case: the sup norm forces y < 0 here, so 8 + y < 8
    rcases max_cases |x| |y| with ⟨hm, _⟩ | ⟨hm, _⟩ <;> rw [hm] at hmax
    · rcases abs_eq (by norm_num : (0:ℚ) ≤ 1) |>.mp hmax with hx1 | hx1
      · -- x = 1, and ¬(x = 1 ∧ 0 ≤ y) gives y < 0
        have : ¬ 0 ≤ y := fun h => h1 ⟨hx1, h⟩
        linarith [not_le.mp this]
      · exact absurd hx1 h3
    · rcases abs_eq (by norm_num : (0:ℚ) ≤ 1) |>.mp hmax with hy1 | hy1
      · exact absurd hy1 h2
      · exact absurd hy1 h4

theorem sqpoint_sqangle {x y : ℚ} (hx : |x| ≤ 1) (hy : |y| ≤ 1)
    (hmax : max |x| |y| = 1) : sqpoint (sqangle x y) = (x, y) := by
  rw [abs_le] at hx hy
  rw [sqangle]
  split_ifs with h1 h2 h3 h4
  · -- x = 1, 0 ≤ y ≤ 1
    obtain ⟨hx1, hy0⟩ := h1
    rw [sqpoint]
    rcases lt_or_ge y 1 with hlt | hge
    · rw [if_pos hlt, hx1]
    · have hy1 : y = 1 := le_antisymm hy.2 hge
      rw [if_neg (by linarith), if_pos (by linarith)]
      rw [hx1, hy1]; norm_num
  · -- y = 1, x ≠ 1 (so x < 1): u = 2 - x ∈ (1,3]
    have hxlt : x < 1 := by
      rcases lt_or_eq_of_le hx.2 with h | h
      · exact h
      · exact absurd ⟨h, by rw [h2]; norm_num⟩ h1
    rw [sqpoint]
    rcases lt_or_ge (2 - x) 3 with hlt | hge
    · rw [if_neg (by linarith), if_pos hlt, h2]
      simp only [Prod.mk.injEq]
      exact ⟨by ring, trivial⟩
    · have hxm1 : x = -1 := by linarith [hx.1]
      rw [if_neg (by linarith), if_neg (by linarith), if_pos (by linarith)]
      rw [h2, hxm1]; norm_num
  · -- x = -1, y ≠ 1 (so y < 1): u = 4 - y ∈ (3,5]
    have hylt : y < 1 := lt_of_le_of_ne hy.2 h2
    rw [sqpoint]
    rcases lt_or_ge (4 - y) 5 with hlt | hge
    · rw [if_neg (by linarith), if_neg (by linarith), if_pos hlt, h3]
      simp only [Prod.mk.injEq]
      exact ⟨trivial, by ring⟩
    · have hym1 : y = -1 := by linarith [hy.1]
      rw [if_neg (by linarith), if_neg (by linarith), if_neg (by linarith),
        if_pos (by linarith)]
      rw [h3, hym1]; norm_num
  · -- y = -1, x ≠ -1 (so -1 < x): u = 6 + x ∈ (5,7]
    have hxgt : -1 < x := lt_of_le_of_ne hx.1 (Ne.symm h3)
    rw [sqpoint]
    rcases lt_or_ge (6 + x) 7 with hlt | hge
    · rw [if_neg (by linarith), if_neg (by linarith), if_neg (by linarith),
        if_pos hlt, h4]
      simp only [Prod.mk.injEq]
      exact ⟨by ring, trivial⟩
    · have hx1 : x = 1 := by linarith [hx.2]
      rw [if_neg (by linarith), if_neg (by linarith), if_neg (by linarith),
        if_neg (by linarith), h4, hx1]
      norm_num
  · -- remaining: x = 1 with y < 0 (u = 8 + y ∈ (7,8))
    have hx1 : x = 1 := by
      rcases max_cases |x| |y| with ⟨hm, _⟩ | ⟨hm, _⟩ <;> rw [hm] at hmax
      · rcases abs_eq (by norm_num : (0:ℚ) ≤ 1) |>.mp hmax with h | h
        · exact h
        · exact absurd h h3
      · rcases abs_eq (by norm_num : (0:ℚ) ≤ 1) |>.mp hmax with h | h
        · exact absurd h h2
        · exact absurd h h4
    have hyneg : y < 0 := by
      by_contra hc
      exact h1 ⟨hx1, not_lt.mp hc⟩
    rw [sqpoint]
    rw [if_neg (by linarith [hy.1]), if_neg (by linarith [hy.1]),
      if_neg (by linarith [hy.1]), if_neg (by linarith)]
    rw [hx1]
    simp only [Prod.mk.injEq]
    exact ⟨trivial, by ring⟩

/-- Interleave the low `l` bits of `x` (even positions) and `y` (odd
positions): the quadtree subdivision path of the cell `(x, y)` on one face. -/
def morton : ℕ → ℕ → ℕ → ℕ
  | 0, _, _ => 0
  | l + 1, x, y => x % 2 + 2 * (y % 2) + 4 * morton l (x / 2) (y / 2)

/-- De-interleave an `l`-level subdivision path back to cell coordinates. -/
def unmorton : ℕ → ℕ → ℕ × ℕ
  | 0, _ => (0, 0)
  | l + 1, m =>
    ((unmorton l (m / 4)).1 * 2 + m % 2, (unmorton l (m / 4)).2 * 2 + m / 2 % 2)

theorem unmorton_lt : ∀ (l m : ℕ), (unmorton l m).1 < 2 ^ l ∧ (unmorton l m).2 < 2 ^ l
  | 0, _ => by simp [unmorton]
  | l + 1, m => by
    have ih := unmorton_lt l (m / 4)
    simp only [unmorton, pow_succ]
    omega

theorem morton_unmorton : ∀ (l m : ℕ), m < 4 ^ l →
    morton l (unmorton l m).1 (unmorton l m).2 = m
  | 0, m, hm => by
    interval_cases m
    simp [morton, unmorton]
  | l + 1, m, hm => by
    have ih := morton_unmorton l (m / 4) (by rw [pow_succ] at hm; omega)
    simp only [unmorton, morton]
    have e1 : ((unmorton l (m / 4)).1 * 2 + m % 2) / 2 = (unmorton l (m / 4)).1 := by
      omega
    have e2 : ((unmorton l (m / 4)).2 * 2 + m / 2 % 2) / 2 = (unmorton l (m / 4)).2 := by
      omega
    rw [e1, e2, ih]
    omega

/-- Side-face number (1–4) from a wrapped right ascension. -/
def faceSide (rn : ℚ) : ℕ := (ratFloor ((rn + 45) / 90)).toNat % 4 + 1

/-- Face-plane coordinates on a side face: `x` is the centered offset of the
right ascension from the face's central meridian, `y` scales declination. -/
def sideXY (rn dec : ℚ) : ℚ × ℚ :=
  ((rn - 90 * ratFloor ((rn + 45) / 90)) / 45, dec / 45)

/-- Face-plane coordinates on a polar face: radius `t` (0 at the pole, 1 at
the face edge) in the square-boundary direction `u`. -/
def polarXY (t u : ℚ) : ℚ × ℚ := (t * (sqpoint u).1, t * (sqpoint u).2)

/-- Modelled from the spec: the kernel's angle-to-face projection
(`_q3c_wrapper` C code is not under the verified sources).  Returns the face
number and the face-plane coordinates in `[-1,1]²`: face 0 is the top
(`dec > 45`), face 5 the bottom (`dec < -45`), faces 1–4 the sides, as in the
source's description "0=top, 1-4=sides, 5=bottom"; right ascension is
unwrapped modulo 360 as the C kernel does. -/
def ang2fxy (ra dec : ℚ) : ℕ × ℚ × ℚ :=
  let rn := wrap360 ra
  if 45 < dec then (0, polarXY ((90 - dec) / 45) (rn / 45))
  else if dec < -45 then (5, polarXY ((dec + 90) / 45) (rn / 45))
  else (faceSide rn, sideXY rn dec)

/-- Modelled from the spec: the kernel's face-to-angle chart
(`faceCoordinateToAngle`), exact rational inverse of `ang2fxy` on the open
face square. -/
def chartInv (f : ℕ) (x y : ℚ) : ℚ × ℚ :=
  if f = 0 then
    let t := max |x| |y|
    if t = 0 then (0, 90) else (wrap360 (45 * sqangle (x / t) (y / t)), 90 - 45 * t)
  else if f = 5 then
    let t := max |x| |y|
    if t = 0 then (0, -90)
    else (wrap360 (45 * sqangle (x / t) (y / t)), -90 + 45 * t)
  else (wrap360 (((f - 1 : ℕ) : ℚ) * 90 + 45 * x), 45 * y)

theorem wrap360_idem (r : ℚ) : wrap360 (wrap360 r) = wrap360 r :=
  wrap360_eq_self (wrap360_nonneg r) (wrap360_lt r)

theorem side_round {f : ℕ} (hf1 : 1 ≤ f) (hf4 : f ≤ 4) {x y : ℚ}
    (hx1 : -1 < x) (hx2 : x < 1) (hy1 : -1 < y) (hy2 : y < 1) :
    ang2fxy (wrap360 (((f - 1 : ℕ) : ℚ) * 90 + 45 * x)) (45 * y) = (f, x, y) := by
  have hfc : ((f - 1 : ℕ) : ℚ) = (f : ℚ) - 1 := by
    push_cast [Nat.cast_sub hf1]; ring
  set S : ℚ := ((f - 1 : ℕ) : ℚ) * 90 + 45 * x with hSdef
  have hfQ1 : (1:ℚ) ≤ (f:ℚ) := by exact_mod_cast hf1
  have hfQ4 : (f:ℚ) ≤ 4 := by exact_mod_cast hf4
  have hS1 : -45 < S := by
    rw [hSdef, hfc]
    nlinarith
  have hS2 : S < 315 := by
    rw [hSdef, hfc]
    nlinarith
  set K : ℤ := ⌊S / 360⌋ with hKdef
  have hKub : K ≤ 0 := by
    have h1 : S / 360 < ((1:ℤ):ℚ) := by
      push_cast
      rw [div_lt_one (by norm_num : (0:ℚ) < 360)]
      linarith
    have := Int.floor_lt.mpr h1
    omega
  have hKlb : -1 ≤ K := by
    have h1 : ((-1:ℤ):ℚ) ≤ S / 360 := by
      push_cast
      rw [le_div_iff (by norm_num : (0:ℚ) < 360)]
      linarith
    exact Int.le_floor.mpr h1
  have hrn : wrap360 S = S - 360 * K := by
    rw [wrap360, ratFloor_eq_floor, hKdef]
  have hfloor : ⌊(wrap360 S + 45) / 90⌋ = (f : ℤ) - 1 - 4 * K := by
    have harg : (wrap360 S + 45) / 90 = (x + 1) / 2 + (((f:ℤ) - 1 - 4*K : ℤ) : ℚ) := by
      rw [hrn, hSdef, hfc]
      push_cast
      field_simp
      ring
    rw [harg, Int.floor_add_int]
    have hz : ⌊(x + 1)/2⌋ = 0 := by
      rw [Int.floor_eq_zero_iff]
      simp only [Set.mem_Ico]
      constructor <;> [linarith; linarith]
    rw [hz]
    ring
  have hface : faceSide (wrap360 S) = f := by
    rw [faceSide, ratFloor_eq_floor, hfloor]
    omega
  have hxcomp : (wrap360 S - 90 * ratFloor ((wrap360 S + 45)/90)) / 45 = x := by
    rw [ratFloor_eq_floor, hfloor, hrn, hSdef, hfc]
    push_cast
    field_simp
    ring
  simp only [ang2fxy, wrap360_idem]
  rw [if_neg (by linarith : ¬ (45:ℚ) < 45 * y),
    if_neg (by linarith : ¬ (45:ℚ) * y < -45)]
  rw [sideXY, hface, hxcomp]
  rw [show (45:ℚ) * y / 45 = y from by ring]

theorem polar_round_top {x y : ℚ} (hx : |x| < 1) (hy : |y| < 1) :
    ang2fxy (chartInv 0 x y).1 (chartInv 0 x y).2 = (0, x, y) := by
  by_cases ht : max |x| |y| = 0
  · have hx0 : x = 0 :=
      abs_eq_zero.mp (le_antisymm (le_trans (le_max_left _ _) ht.le) (abs_nonneg x))
    have hy0 : y = 0 :=
      abs_eq_zero.mp (le_antisymm (le_trans (le_max_right _ _) ht.le) (abs_nonneg y))
    subst hx0; subst hy0
    have hc : chartInv 0 0 0 = ((0:ℚ), (90:ℚ)) := by
      simp [chartInv]
    rw [hc]
    simp only [ang2fxy]
    rw [wrap360_eq_self (by norm_num) (by norm_num)]
    rw [if_pos (by norm_num : (45:ℚ) < 90)]
    rw [show ((90:ℚ) - 90)/45 = 0 from by norm_num]
    simp [polarXY]
  · set t := max |x| |y| with htdef
    have ht0 : 0 < t :=
      lt_of_le_of_ne (le_trans (abs_nonneg x) (le_max_left _ _)) (Ne.symm ht)
    have hxt : |x| ≤ t := le_max_left _ _
    have hyt : |y| ≤ t := le_max_right _ _
    have ht1 : t < 1 := max_lt hx hy
    have habsx : |x / t| ≤ 1 := by
      rw [abs_div, abs_of_pos ht0]
      exact (div_le_one ht0).mpr hxt
    have habsy : |y / t| ≤ 1 := by
      rw [abs_div, abs_of_pos ht0]
      exact (div_le_one ht0).mpr hyt
    have hmax1 : max |x / t| |y / t| = 1 := by
      rw [abs_div, abs_div, abs_of_pos ht0, max_div_div_right ht0.le, ← htdef]
      exact div_self (ne_of_gt ht0)
    set s := sqangle (x / t) (y / t) with hsdef
    have hs0 : 0 ≤ s := sqangle_nonneg habsx habsy
    have hs8 : s < 8 := sqangle_lt_eight habsx habsy hmax1
    have hw : wrap360 (45 * s) = 45 * s :=
      wrap360_eq_self (by positivity) (by linarith)
    have hc : chartInv 0 x y = (45 * s, 90 - 45 * t) := by
      rw [chartInv, if_pos rfl]
      simp only [← htdef, ← hsdef]
      rw [if_neg ht, hw]
    rw [hc]
    simp only [ang2fxy]
    rw [hw]
    rw [if_pos (by linarith : (45:ℚ) < 90 - 45 * t)]
    rw [show ((90:ℚ) - (90 - 45 * t))/45 = t from by ring,
      show (45:ℚ) * s / 45 = s from by ring]
    rw [polarXY, hsdef, sqpoint_sqangle habsx habsy hmax1]
    rw [show t * (x / t) = x from by field_simp, show t * (y / t) = y from by field_simp]

theorem polar_round_bot {x y : ℚ} (hx : |x| < 1) (hy : |y| < 1) :
    ang2fxy (chartInv 5 x y).1 (chartInv 5 x y).2 = (5, x, y) := by
  by_cases ht : max |x| |y| = 0
  · have hx0 : x = 0 :=
      abs_eq_zero.mp (le_antisymm (le_trans (le_max_left _ _) ht.le) (abs_nonneg x))
    have hy0 : y = 0 :=
      abs_eq_zero.mp (le_antisymm (le_trans (le_max_right _ _) ht.le) (abs_nonneg y))
    subst hx0; subst hy0
    have hc : chartInv 5 0 0 = ((0:ℚ), (-90:ℚ)) := by
      simp [chartInv]
    rw [hc]
    simp only [ang2fxy]
    rw [wrap360_eq_self (by norm_num) (by norm_num)]
    rw [if_neg (by norm_num : ¬ (45:ℚ) < -90), if_pos (by norm_num : (-90:ℚ) < -45)]
    rw [show ((-90:ℚ) + 90)/45 = 0 from by norm_num]
    simp [polarXY]
  · set t := max |x| |y| with htdef
    have ht0 : 0 < t :=
      lt_of_le_of_ne (le_trans (abs_nonneg x) (le_max_left _ _)) (Ne.symm ht)
    have hxt : |x| ≤ t := le_max_left _ _
    have hyt : |y| ≤ t := le_max_right _ _
    have ht1 : t < 1 := max_lt hx hy
    have habsx : |x / t| ≤ 1 := by
      rw [abs_div, abs_of_pos ht0]
      exact (div_le_one ht0).mpr hxt
    have habsy : |y / t| ≤ 1 := by
      rw [abs_div, abs_of_pos ht0]
      exact (div_le_one ht0).mpr hyt
    have hmax1 : max |x / t| |y / t| = 1 := by
      rw [abs_div, abs_div, abs_of_pos ht0, max_div_div_right ht0.le, ← htdef]
      exact div_self (ne_of_gt ht0)
    set s := sqangle (x / t) (y / t) with hsdef
    have hs0 : 0 ≤ s := sqangle_nonneg habsx habsy
    have hs8 : s < 8 := sqangle_lt_eight habsx habsy hmax1
    have hw : wrap360 (45 * s) = 45 * s :=
      wrap360_eq_self (by positivity) (by linarith)
    have hc : chartInv 5 x y = (45 * s, -90 + 45 * t) := by
      rw [chartInv, if_neg (by norm_num : (5:ℕ) ≠ 0), if_pos rfl]
      simp only [← htdef, ← hsdef]
      rw [if_neg ht, hw]
    rw [hc]
    simp only [ang2fxy]
    rw [hw]
    rw [if_neg (by linarith : ¬ (45:ℚ) < -90 + 45 * t),
      if_pos (by linarith : (-90:ℚ) + 45 * t < -45)]
    rw [show ((-90:ℚ) + 45 * t + 90)/45 = t from by ring,
      show (45:ℚ) * s / 45 = s from by ring]
    rw [polarXY, hsdef, sqpoint_sqangle habsx habsy hmax1]
    rw [show t * (x / t) = x from by field_simp, show t * (y / t) = y from by field_simp]

theorem ang2fxy_chartInv {f : ℕ} (hf : f ≤ 5) {x y : ℚ}
    (hx1 : -1 < x) (hx2 : x < 1) (hy1 : -1 < y) (hy2 : y < 1) :
    ang2fxy (chartInv f x y).1 (chartInv f x y).2 = (f, x, y) := by
  have hax : |x| < 1 := abs_lt.mpr ⟨hx1, hx2⟩
  have hay : |y| < 1 := abs_lt.mpr ⟨hy1, hy2⟩
  by_cases h0 : f = 0
  · subst h0; exact polar_round_top hax hay
  by_cases h5 : f = 5
  · subst h5; exact polar_round_bot hax hay
  have hf1 : 1 ≤ f := by omega
  have hf4 : f ≤ 4 := by omega
  have hc : chartInv f x y = (wrap360 (((f - 1 : ℕ) : ℚ) * 90 + 45 * x), 45 * y) := by
    rw [chartInv, if_neg h0, if_neg h5]
  rw [hc]
  exact side_round hf1 hf4 hx1 hx2 hy1 hy2

/-- Quantize a face coordinate in `[-1,1]` to a cell index in `[0, n)`
(values on the upper boundary are clamped into the last cell). -/
def quant (n : ℕ) (x : ℚ) : ℕ := min (ratFloor ((x + 1) / 2 * n)).toNat (n - 1)

theorem quant_center {n ix : ℕ} (hn : 0 < n) (hix : ix < n) :
    quant n ((2 * (ix:ℚ) + 1) / (n:ℚ) - 1) = ix := by
  have hn' : ((n:ℚ)) ≠ 0 := by positivity
  have harg : ((2 * (ix:ℚ) + 1) / (n:ℚ) - 1 + 1) / 2 * (n:ℚ) = (ix : ℚ) + 1/2 := by
    field_simp
    ring
  rw [quant, harg, ratFloor_eq_floor]
  have hfl : ⌊(ix:ℚ) + 1/2⌋ = (ix:ℤ) := by
    rw [Int.floor_eq_iff]
    constructor
    · push_cast; linarith
    · push_cast; linarith
  rw [hfl, Int.toNat_natCast]
  omega

/-- Modelled from the spec: the kernel's `ang2ipix` — project to a face,
quantize the face coordinates, and interleave into a pixel id
`face * nside² + path` (spec §3: "Encodes face + subdivision path"). -/
def kAng2ipix (l : ℕ) (ra dec : ℚ) : ℕ :=
  let n : ℕ := 2 ^ l
  let fxy := ang2fxy ra dec
  fxy.1 * n ^ 2 + morton l (quant n fxy.2.1) (quant n fxy.2.2)

/-- Modelled from the spec: the kernel's `ipix2xy` — decode the face number
and the lower-left corner of the pixel's cell (the source comment at the
`ipix2xy` call site records that the kernel returns the lower-left corner).
Out-of-contract pixel ids are reduced modulo the pixel count. -/
def kIpix2xy (l : ℕ) (i : ℤ) : ℕ × ℚ × ℚ :=
  let n : ℕ := 2 ^ l
  let m := (i % (6 * (n:ℤ) ^ 2)).toNat
  let p := unmorton l (m % n ^ 2)
  (m / n ^ 2, (2 * (p.1:ℚ)) / (n:ℚ) - 1, (2 * (p.2:ℚ)) / (n:ℚ) - 1)

/-- Modelled from the spec: the kernel's `ipix2ang` — the representative
angular position of a pixel, namely the chart image of its cell center. -/
def kIpix2ang (l : ℕ) (i : ℤ) : ℚ × ℚ :=
  let n : ℕ := 2 ^ l
  let c := kIpix2xy l i
  chartInv c.1 (c.2.1 + 1 / (n:ℚ)) (c.2.2 + 1 / (n:ℚ))

/-- The geometry-kernel interface consumed by the Python layer (spec §6).
Only the entry points the verified claims need are modelled. -/
structure Kernel where
  nside : ℕ
  ang2ipix : ℚ → ℚ → ℕ
  ipix2ang : ℤ → ℚ × ℚ
  ipix2xy : ℤ → ℕ × ℚ × ℚ
  xy2ang : ℚ → ℚ → ℕ → ℚ × ℚ
  facenum : ℚ → ℚ → ℕ

/-- Modelled from the spec: the concrete rational q3c kernel at bin level `l`. -/
def q3cModel (l : ℕ) : Kernel where
  nside := 2 ^ l
  ang2ipix := kAng2ipix l
  ipix2ang := kIpix2ang l
  ipix2xy := kIpix2xy l
  xy2ang := fun x y f => chartInv f x y
  facenum := fun ra dec => (ang2fxy ra dec).1

theorem chartInv_range {f : ℕ} (hf : f ≤ 5) {x y : ℚ}
    (hx1 : -1 < x) (hx2 : x < 1) (hy1 : -1 < y) (hy2 : y < 1) :
    0 ≤ (chartInv f x y).1 ∧ (chartInv f x y).1 < 360 ∧
      -90 ≤ (chartInv f x y).2 ∧ (chartInv f x y).2 ≤ 90 := by
  have hax : |x| < 1 := abs_lt.mpr ⟨hx1, hx2⟩
  have hay : |y| < 1 := abs_lt.mpr ⟨hy1, hy2⟩
  have htmax : max |x| |y| < 1 := max_lt hax hay
  have ht0 : 0 ≤ max |x| |y| := le_trans (abs_nonneg x) (le_max_left _ _)
  simp only [chartInv]
  split_ifs with h0 ht h5 ht2
  · norm_num
  · refine ⟨wrap360_nonneg _, wrap360_lt _, ?_, ?_⟩
    · show (-90:ℚ) ≤ 90 - 45 * (max |x| |y|)
      linarith
    · show (90:ℚ) - 45 * (max |x| |y|) ≤ 90
      linarith
  · norm_num
  · refine ⟨wrap360_nonneg _, wrap360_lt _, ?_, ?_⟩
    · show (-90:ℚ) ≤ -90 + 45 * (max |x| |y|)
      linarith
    · show (-90:ℚ) + 45 * (max |x| |y|) ≤ 90
      linarith
  · refine ⟨wrap360_nonneg _, wrap360_lt _, ?_, ?_⟩
    · show (-90:ℚ) ≤ 45 * y
      linarith
    · show (45:ℚ) * y ≤ 90
      linarith

theorem kernel_roundtrip (l p : ℕ) (hp : p < 6 * (2 ^ l) ^ 2) :
    (0 ≤ (kIpix2ang l (p:ℤ)).1 ∧ (kIpix2ang l (p:ℤ)).1 < 360 ∧
      -90 ≤ (kIpix2ang l (p:ℤ)).2 ∧ (kIpix2ang l (p:ℤ)).2 ≤ 90) ∧
    kAng2ipix l (kIpix2ang l (p:ℤ)).1 (kIpix2ang l (p:ℤ)).2 = p := by
  have hn : 0 < 2 ^ l := by positivity
  have hn' : ((2 ^ l : ℕ) : ℚ) ≠ 0 := by positivity
  have hpow : (2 ^ l : ℕ) ^ 2 = 4 ^ l := by
    rw [← pow_mul, show (4:ℕ) = 2 ^ 2 from rfl, ← pow_mul, mul_comm]
  have hf5 : p / (2 ^ l) ^ 2 ≤ 5 := by
    have h6 : p / (2 ^ l) ^ 2 < 6 :=
      (Nat.div_lt_iff_lt_mul (by positivity)).mpr (by omega)
    omega
  have hr4 : p % (2 ^ l) ^ 2 < 4 ^ l := by
    rw [← hpow]
    exact Nat.mod_lt _ (by positivity)
  obtain ⟨hix, hiy⟩ := unmorton_lt l (p % (2 ^ l) ^ 2)
  set ix := (unmorton l (p % (2 ^ l) ^ 2)).1 with hixdef
  set iy := (unmorton l (p % (2 ^ l) ^ 2)).2 with hiydef
  have hemod : ((p:ℤ) % (6 * ((2 ^ l : ℕ) : ℤ) ^ 2)).toNat = p := by
    rw [Int.emod_eq_of_lt (Int.natCast_nonneg p) (by exact_mod_cast hp)]
    exact Int.toNat_natCast p
  have hcenter : ∀ j : ℕ, (2 * (j:ℚ)) / ((2 ^ l : ℕ) : ℚ) - 1 + 1 / ((2 ^ l : ℕ) : ℚ)
      = (2 * (j:ℚ) + 1) / ((2 ^ l : ℕ) : ℚ) - 1 := by
    intro j
    field_simp
    ring
  have hang : kIpix2ang l (p:ℤ) =
      chartInv (p / (2 ^ l) ^ 2)
        ((2 * (ix:ℚ) + 1) / ((2 ^ l : ℕ) : ℚ) - 1)
        ((2 * (iy:ℚ) + 1) / ((2 ^ l : ℕ) : ℚ) - 1) := by
    simp only [kIpix2ang, kIpix2xy, hemod, ← hixdef, ← hiydef]
    rw [hcenter ix, hcenter iy]
  have hcx1 : (-1:ℚ) < (2 * (ix:ℚ) + 1) / ((2 ^ l : ℕ) : ℚ) - 1 := by
    have : (0:ℚ) < (2 * (ix:ℚ) + 1) / ((2 ^ l : ℕ) : ℚ) := by positivity
    linarith
  have hcx2 : (2 * (ix:ℚ) + 1) / ((2 ^ l : ℕ) : ℚ) - 1 < 1 := by
    have hix1 : (ix:ℚ) + 1 ≤ ((2 ^ l : ℕ) : ℚ) := by exact_mod_cast hix
    have := (div_lt_iff (show (0:ℚ) < ((2 ^ l : ℕ) : ℚ) by positivity)).mpr
      (by linarith : (2 * (ix:ℚ) + 1) < 2 * ((2 ^ l : ℕ) : ℚ))
    linarith
  have hcy1 : (-1:ℚ) < (2 * (iy:ℚ) + 1) / ((2 ^ l : ℕ) : ℚ) - 1 := by
    have : (0:ℚ) < (2 * (iy:ℚ) + 1) / ((2 ^ l : ℕ) : ℚ) := by positivity
    linarith
  have hcy2 : (2 * (iy:ℚ) + 1) / ((2 ^ l : ℕ) : ℚ) - 1 < 1 := by
    have hiy1 : (iy:ℚ) + 1 ≤ ((2 ^ l : ℕ) : ℚ) := by exact_mod_cast hiy
    have := (div_lt_iff (show (0:ℚ) < ((2 ^ l : ℕ) : ℚ) by positivity)).mpr
      (by linarith : (2 * (iy:ℚ) + 1) < 2 * ((2 ^ l : ℕ) : ℚ))
    linarith
  constructor
  · rw [hang]
    exact chartInv_range hf5 hcx1 hcx2 hcy1 hcy2
  · rw [hang]
    simp only [kAng2ipix, ang2fxy_chartInv hf5 hcx1 hcx2 hcy1 hcy2]
    rw [quant_center hn hix, quant_center hn hiy]
    rw [hixdef, hiydef, morton_unmorton l _ hr4]
    rw [Nat.mul_comm]
    exact Nat.div_add_mod p ((2 ^ l) ^ 2)

/-- `QLSC.nbins`: `int(pow(self.nside, 2)) * 6`, the total pixel count. -/
def nbins (k : Kernel) : ℕ := k.nside ^ 2 * 6

/-- Modelled from the spec: `utilities._normalize_ang` is not under the
verified sources; spec §6 `normalizeAngle`: "ra unwrapped modulo 360; dec
reflected/clamped into [-90,90]".  Reflection across a pole shifts the
right ascension by 180 degrees. -/
def normalizeAng (ra dec : ℚ) : ℚ × ℚ :=
  let d := wrap360 (dec + 90) - 90
  if 90 < d then (wrap360 (ra + 180), 180 - d) else (wrap360 ra, d)

theorem normalizeAng_range (ra dec : ℚ) :
    0 ≤ (normalizeAng ra dec).1 ∧ (normalizeAng ra dec).1 < 360 ∧
      -90 ≤ (normalizeAng ra dec).2 ∧ (normalizeAng ra dec).2 ≤ 90 := by
  have h1 := wrap360_nonneg (dec + 90)
  have h2 := wrap360_lt (dec + 90)
  simp only [normalizeAng]
  split_ifs with h
  · refine ⟨wrap360_nonneg _, wrap360_lt _, ?_, ?_⟩
    · show (-90:ℚ) ≤ 180 - (wrap360 (dec + 90) - 90)
      linarith
    · show (180:ℚ) - (wrap360 (dec + 90) - 90) ≤ 90
      linarith
  · refine ⟨wrap360_nonneg _, wrap360_lt _, ?_, ?_⟩
    · show (-90:ℚ) ≤ wrap360 (dec + 90) - 90
      linarith
    · show wrap360 (dec + 90) - (90:ℚ) ≤ 90
      linarith

/-- `QLSC.ang2ipix`, scalar path (source lines 120–128): an out-of-range
scalar pair is silently normalized (the raises are commented out in the
source), then the kernel is called; this path never raises. -/
def ang2ipix (k : Kernel) (ra dec : ℚ) : ℕ :=
  if ¬((-90 ≤ dec ∧ dec ≤ 90) ∧ (0 ≤ ra ∧ ra ≤ 360)) then
    k.ang2ipix (normalizeAng ra dec).1 (normalizeAng ra dec).2
  else k.ang2ipix ra dec

/-- Running minimum of a nonempty list, as Python's `min()`. -/
def listMin (x : ℚ) (xs : List ℚ) : ℚ := xs.foldl min x

/-- Running maximum of a nonempty list, as Python's `max()`. -/
def listMax (x : ℚ) (xs : List ℚ) : ℚ := xs.foldl max x

/-- Outcome of the vector branch of `QLSC.ang2ipix` (source lines 112–118)
up to the delegation to the C wrapper: either a raise, or the in-range
lists are passed on.  `min()`/`max()` of an empty Python sequence also
raise `ValueError`. -/
def ang2ipix_vec_check (ras decs : List ℚ) : Except PyErr Unit :=
  match decs with
  | [] => .error .valueError
  | d :: ds =>
    if ¬(-90 ≤ listMin d ds ∧ listMax d ds ≤ 90) then .error .valueError
    else
      match ras with
      | [] => .error .valueError
      | r :: rs =>
        if ¬(0 ≤ listMin r rs ∧ listMax r rs ≤ 360) then .error .valueError
        else .ok ()

/-- `QLSC.ipix2ang` (source lines 154–168): bounds check, then delegate. -/
def ipix2ang (k : Kernel) (ipix : ℤ) : Except PyErr (ℚ × ℚ) :=
  if ¬(0 ≤ ipix ∧ ipix < (nbins k : ℤ)) then .error .valueError
  else .ok (k.ipix2ang ipix)

/-- `QLSC.ipix2xy` (source lines 170–178): no bounds check at all, direct
delegation to the kernel. -/
def ipix2xy (k : Kernel) (ipix : ℤ) : Except PyErr (ℕ × ℚ × ℚ) :=
  .ok (k.ipix2xy ipix)

/-- `QLSC.xy2ang` (source lines 180–218), scalar call shape
(`points=None`).  Note the range test at line 207 raises only when BOTH
coordinates are out of range:
`if not (-1 <= x <= 1) and not (-1 <= y <= 1)`. -/
def xy2ang (k : Kernel) (facenum : Option ℤ) (x y : Option ℚ) :
    Except PyErr (ℚ × ℚ) :=
  match facenum with
  | none => .error .valueError
  | some f =>
    if ¬(0 ≤ f ∧ f ≤ 5) then .error .valueError
    else
      match x, y with
      | some xv, some yv =>
        if ¬(-1 ≤ xv ∧ xv ≤ 1) ∧ ¬(-1 ≤ yv ∧ yv ≤ 1) then .error .valueError
        else .ok (k.xy2ang xv yv f.toNat)
      | _, _ => .error .valueError

/-- `QLSC.xy2ang`, sequence call shape (`points` given, `x = y = None`):
the conversion is mapped over the pairs; the scalar range test is guarded
by `points is None` and thus skipped entirely. -/
def xy2ang_points (k : Kernel) (facenum : Option ℤ) (pts : List (ℚ × ℚ)) :
    Except PyErr (List (ℚ × ℚ)) :=
  match facenum with
  | none => .error .valueError
  | some f =>
    if ¬(0 ≤ f ∧ f ≤ 5) then .error .valueError
    else .ok (pts.map fun p => k.xy2ang p.1 p.2 f.toNat)

/-- Python truthiness of an optional integer: `None` and `0` are falsy. -/
def truthyInt : Option ℤ → Bool
  | some i => i != 0
  | none => false

/-- The `ra`,`dec` branch of `QLSC.face_number` (source lines 262–272):
comparing `None` against a numeric bound raises `TypeError`. -/
def face_number_radec (k : Kernel) (ra dec : Option ℚ) : Except PyErr ℕ :=
  match dec with
  | none => .error .typeError
  | some d =>
    if ¬(-90 ≤ d ∧ d ≤ 90) then .error .valueError
    else
      match ra with
      | none => .error .typeError
      | some r =>
        if ¬(-360 ≤ r ∧ r ≤ 360) then .error .valueError
        else .ok (k.facenum r d)

/-- `QLSC.face_number` (source lines 244–272).  `if ipix:` is a Python
truthiness test, failed by both `None` and `0`. -/
def face_number (k : Kernel) (ra dec : Option ℚ) (ipix : Option ℤ) :
    Except PyErr ℕ :=
  if truthyInt ipix ∧ (ra.isSome ∨ dec.isSome) then .error .valueError
  else if (ra.isSome ∨ dec.isSome) ∧ ¬(ra.isSome ∧ dec.isSome) then
    .error .valueError
  else
    match ipix with
    | some i =>
      if i ≠ 0 then
        if ¬(0 ≤ i ∧ i < (nbins k : ℤ)) then .error .valueError
        else
          match ipix2ang k i with
          | .ok rd => .ok (k.facenum rd.1 rd.2)
          | .error e => .error e
      else face_number_radec k ra dec
    | none => face_number_radec k ra dec

/-- The pixel-center bit transformation of `QLSC.ipixcenter` (source line
311): `(ipix >> 2·depth << 2·depth) + (1 << 2·(depth-1)) - 1`. -/
def centerShift (i d : ℕ) : ℕ :=
  (i >>> (2 * d)) <<< (2 * d) + (1 <<< (2 * (d - 1))) - 1

/-- `QLSC.ipixcenter` (source lines 300–311): `depth` must be in [1,30];
the raw kernel `ang2ipix` result is then shifted to the ancestor-cell
center. -/
def ipixcenter (k : Kernel) (ra dec : ℚ) (depth : ℤ) : Except PyErr ℕ :=
  if ¬(1 ≤ depth ∧ depth ≤ 30) then .error .valueError
  else .ok (centerShift (k.ang2ipix ra dec) depth.toNat)

/-- `QLSC.ipix2polygon` (source lines 313–370): validate `ipix`, fetch the
cell's lower-left corner, build the corner list — closing the ring when
`duplicate_endpoint` is set — then (lines 367–368) drop the last element
again when `duplicate_endpoint` is set, and map the corners through
`xy2ang(facenum=..., points=...)`. -/
def ipix2polygon (k : Kernel) (ipix : Option ℤ) (duplicate_endpoint : Bool) :
    Except PyErr (List (ℚ × ℚ)) :=
  match ipix with
  | none => .error .valueError
  | some i =>
    if ¬(0 ≤ i ∧ i < (nbins k : ℤ)) then .error .valueError
    else
      let d : ℚ := 2 / (k.nside : ℚ)
      let c := k.ipix2xy i
      let x := c.2.1
      let y := c.2.2
      let polygon :=
        if duplicate_endpoint then
          [(x, y), (x + d, y), (x + d, y + d), (x, y + d), (x, y)]
        else [(x, y), (x + d, y), (x + d, y + d), (x, y + d)]
      let polygon2 := if duplicate_endpoint then polygon.dropLast else polygon
      xy2ang_points k (some (c.1 : ℤ)) polygon2

/-- State of a bulk insertion: rows inserted so far, the batch counter, and
the number of in-loop `commit()` calls made so far. -/
structure InsertRun where
  rows : ℕ
  counter : ℕ
  commits : ℕ
  deriving DecidableEq, Repr

/-- One iteration of the `QLSCIndex.add_points` loop (source lines
509–522): insert the row, increment the counter, and commit (resetting the
counter) once the counter exceeds 50000. -/
def insertStep (s : InsertRun) (_p : ℚ × ℚ) : InsertRun :=
  let c := s.counter + 1
  if 50000 < c then ⟨s.rows + 1, 0, s.commits + 1⟩
  else ⟨s.rows + 1, c, s.commits⟩

/-- The `QLSCIndex.add_points` bulk-insert loop over (ra, dec) points (both
the parallel-lists branch and the pairs branch run this same loop).
`commits` counts only the in-loop batch commits; the final commit on
leaving `with self.data_source:` is separate.  `rows` is what
`number_of_points` reports after the call. -/
def add_points (pts : List (ℚ × ℚ)) : InsertRun := pts.foldl insertStep ⟨0, 0, 0⟩

/-- Values assignable to the `QLSCIndex.data_source` property. -/
inductive DSValue where
  | connVal
  | strVal (s : String)
  | ndarrayVal
  | tableVal
  | dfVal
  | noneVal
  deriving DecidableEq, Repr

/-- The module executes `import numpy as np`; the bare name `numpy` used at
source line 441 (`isinstance(new_value, numpy.ndarray)`) is unbound. -/
def numpyNameBound : Bool := false

/-- The `data_source` property setter (source lines 394–449).  A
string/path opens an SQLite database (modelled as storing the path); every
other value falls through to the `elif isinstance(new_value,
numpy.ndarray)` test, which raises `NameError` because `numpy` is unbound —
including `None`, whose intended `ValueError` at line 449 is dead code.  On
error the stored data source is unchanged (the state is only replaced on a
successful return). -/
def data_source_set (cur : DSValue) (v : DSValue) : Except PyErr DSValue :=
  match v with
  | .strVal s => .ok (.strVal s)
  | _ =>
    if numpyNameBound then
      match v with
      | .ndarrayVal => .ok .ndarrayVal
      | .tableVal => .error .notImplementedError
      | .dfVal => .error .notImplementedError
      | .noneVal => .error .valueError
      | _ => .ok cur
    else .error .nameError

/-- `QLSCIndex._radial_match` (source lines 582–690): the pixel id of the
point (via the Python `ang2ipix` wrapper) is tested against the 50
half-open `[lo, hi)` interval pairs of zone 1 and the 50 pairs of zone 0
delivered by `radial_query_it`; on a coarse hit the kernel chord metric
`sindist` is compared strictly against `sin(radians(radius)/2)²`.  The C
functions `radial_query_it` and `sindist` and the float `sin`/`radians`
are not under the verified sources and enter as parameters. -/
def _radial_match (k : Kernel) (rqit : ℚ → ℚ → ℚ → ℕ → ℕ → ℤ)
    (sind : ℚ → ℚ → ℚ → ℚ → ℚ) (sinQ deg2radQ : ℚ → ℚ)
    (ra dec center_ra center_dec radius : ℚ) : Bool :=
  let ipix : ℤ := ang2ipix k ra dec
  (((List.range 50).any fun j =>
      decide (rqit center_ra center_dec radius (2 * j) 1 ≤ ipix ∧
        ipix < rqit center_ra center_dec radius (2 * j + 1) 1)) ||
    ((List.range 50).any fun j =>
      decide (rqit center_ra center_dec radius (2 * j) 0 ≤ ipix ∧
        ipix < rqit center_ra center_dec radius (2 * j + 1) 0))) &&
  decide (sind ra dec center_ra center_dec < sinQ (deg2radQ radius / 2) ^ 2)

/-- `QLSCIndex.radial_query` (source lines 538–580), SQLite branch: scan
the stored points in iteration order, appending each point that passes
`_radial_match`; returns the accumulated list (empty when nothing
matches). -/
def radial_query (k : Kernel) (rqit : ℚ → ℚ → ℚ → ℕ → ℕ → ℤ)
    (sind : ℚ → ℚ → ℚ → ℚ → ℚ) (sinQ deg2radQ : ℚ → ℚ)
    (store : List (ℚ × ℚ)) (center_ra center_dec radius : ℚ) : List (ℚ × ℚ) :=
  store.foldl
    (fun acc p =>
      if _radial_match k rqit sind sinQ deg2radQ p.1 p.2 center_ra center_dec radius
      then acc ++ [p] else acc)
    []

theorem foldl_filter_append {α : Type} (f : α → Bool) :
    ∀ (l acc : List α),
      l.foldl (fun m p => if f p then m ++ [p] else m) acc = acc ++ l.filter f
  | [], acc => by simp
  | a :: l, acc => by
    rw [List.foldl_cons, List.filter_cons]
    by_cases h : f a = true
    · rw [if_pos h, if_pos h, foldl_filter_append f l (acc ++ [a])]
      simp
    · rw [if_neg h, if_neg h, foldl_filter_append f l acc]

theorem listMin_le_self : ∀ (xs : List ℚ) (x : ℚ), listMin x xs ≤ x
  | [], x => le_refl x
  | y :: ys, x => le_trans (listMin_le_self ys (min x y)) (min_le_left x y)

theorem listMin_le_mem : ∀ (xs : List ℚ) (x a : ℚ), a ∈ xs → listMin x xs ≤ a
  | [], _, a, h => absurd h (List.not_mem_nil a)
  | y :: ys, x, a, h => by
    rcases List.mem_cons.mp h with rfl | h'
    · exact le_trans (listMin_le_self ys (min x a)) (min_le_right x a)
    · exact listMin_le_mem ys (min x y) a h'

theorem le_listMax_self : ∀ (xs : List ℚ) (x : ℚ), x ≤ listMax x xs
  | [], x => le_refl x
  | y :: ys, x => le_trans (le_max_left x y) (le_listMax_self ys (max x y))

theorem le_listMax_mem : ∀ (xs : List ℚ) (x a : ℚ), a ∈ xs → a ≤ listMax x xs
  | [], _, a, h => absurd h (List.not_mem_nil a)
  | y :: ys, x, a, h => by
    rcases List.mem_cons.mp h with rfl | h'
    · exact le_trans (le_max_right x a) (le_listMax_self ys (max x a))
    · exact le_listMax_mem ys (max x y) a h'

theorem vec_check_cases (ras decs : List ℚ) :
    ang2ipix_vec_check ras decs = .ok () ∨
    ang2ipix_vec_check ras decs = .error .valueError := by
  match decs, ras with
  | [], _ => exact Or.inr rfl
  | d :: ds, [] =>
    simp only [ang2ipix_vec_check]
    split_ifs <;> simp
  | d :: ds, r :: rs =>
    simp only [ang2ipix_vec_check]
    split_ifs <;> simp

theorem vec_check_ok_bounds {ras decs : List ℚ}
    (h : ang2ipix_vec_check ras decs = .ok ()) :
    (∀ d ∈ decs, -90 ≤ d ∧ d ≤ 90) ∧ (∀ r ∈ ras, 0 ≤ r ∧ r ≤ 360) := by
  match decs, ras with
  | [], _ => simp [ang2ipix_vec_check] at h
  | d :: ds, [] =>
    simp only [ang2ipix_vec_check] at h
    split_ifs at h
  | d :: ds, r :: rs =>
    simp only [ang2ipix_vec_check] at h
    split_ifs at h with hc1 hc2
    constructor
    · intro a ha
      rcases List.mem_cons.mp ha with rfl | h'
      · exact ⟨le_trans hc1.1 (listMin_le_self ds a),
          le_trans (le_listMax_self ds a) hc1.2⟩
      · exact ⟨le_trans hc1.1 (listMin_le_mem ds d a h'),
          le_trans (le_listMax_mem ds d a h') hc1.2⟩
    · intro a ha
      rcases List.mem_cons.mp ha with rfl | h'
      · exact ⟨le_trans hc2.1 (listMin_le_self rs a),
          le_trans (le_listMax_self rs a) hc2.2⟩
      · exact ⟨le_trans hc2.1 (listMin_le_mem rs r a h'),
          le_trans (le_listMax_mem rs r a h') hc2.2⟩

theorem insertStep_state (n : ℕ) (p : ℚ × ℚ) :
    insertStep ⟨n, n % 50001, n / 50001⟩ p
      = ⟨n + 1, (n + 1) % 50001, (n + 1) / 50001⟩ := by
  simp only [insertStep]
  by_cases h : 50000 < n % 50001 + 1
  · rw [if_pos h]
    have h1 : (n + 1) % 50001 = 0 := by omega
    have h2 : (n + 1) / 50001 = n / 50001 + 1 := by omega
    rw [h1, h2]
  · rw [if_neg h]
    have h1 : (n + 1) % 50001 = n % 50001 + 1 := by omega
    have h2 : (n + 1) / 50001 = n / 50001 := by omega
    rw [h1, h2]

theorem foldl_insertStep : ∀ (pts : List (ℚ × ℚ)) (n : ℕ),
    pts.foldl insertStep ⟨n, n % 50001, n / 50001⟩
      = ⟨n + pts.length, (n + pts.length) % 50001, (n + pts.length) / 50001⟩
  | [], n => by simp
  | p :: ps, n => by
    rw [List.foldl_cons, insertStep_state, foldl_insertStep ps (n + 1)]
    simp only [List.length_cons]
    have e : n + 1 + ps.length = n + (ps.length + 1) := by omega
    rw [e]

theorem add_points_closed (pts : List (ℚ × ℚ)) :
    add_points pts = ⟨pts.length, pts.length % 50001, pts.length / 50001⟩ := by
  have h0 : (⟨0, 0, 0⟩ : InsertRun) = ⟨0, 0 % 50001, 0 / 50001⟩ := by norm_num
  rw [add_points, h0, foldl_insertStep]
  simp

theorem centerShift_idem (i d : ℕ) (hd : 1 ≤ d) :
    centerShift (centerShift i d) d = centerShift i d := by
  have hM : 0 < 2 ^ (2 * d) := by positivity
  have hle : 2 ^ (2 * (d - 1)) ≤ 2 ^ (2 * d) :=
    Nat.pow_le_pow_right (by norm_num) (by omega)
  have h1 : 0 < 2 ^ (2 * (d - 1)) := by positivity
  simp only [centerShift, Nat.shiftRight_eq_div_pow, Nat.shiftLeft_eq, one_mul]
  have hsub : ∀ a : ℕ, a + 2 ^ (2 * (d - 1)) - 1 = a + (2 ^ (2 * (d - 1)) - 1) := by
    intro a
    omega
  rw [hsub, hsub]
  have hdiv : (i / 2 ^ (2 * d) * 2 ^ (2 * d) + (2 ^ (2 * (d - 1)) - 1)) / 2 ^ (2 * d)
      = i / 2 ^ (2 * d) := by
    rw [Nat.add_comm, Nat.add_mul_div_right _ _ hM, Nat.div_eq_of_lt (by omega)]
    omega
  rw [hdiv]

theorem ang2fxy_fst_le (ra dec : ℚ) : (ang2fxy ra dec).1 ≤ 5 := by
  simp only [ang2fxy]
  split_ifs
  · norm_num
  · norm_num
  · show faceSide (wrap360 ra) ≤ 5
    rw [faceSide]
    have := Nat.mod_lt (ratFloor ((wrap360 ra + 45) / 90)).toNat
      (show 0 < 4 by norm_num)
    omega

/-- C1: `radial_query` over an SQLite-backed store returns exactly the
stored points whose pixel id lies in the union of the up-to-50 half-open
kernel intervals of zone 1 and of zone 0 and whose chord metric is
strictly below `sin(radius_in_radians/2)²`, as a list in store iteration
order; an empty result is the empty list (and the scan never raises —
every branch returns a list). -/
theorem radial_query_filters_store (k : Kernel) (rqit : ℚ → ℚ → ℚ → ℕ → ℕ → ℤ)
    (sind : ℚ → ℚ → ℚ → ℚ → ℚ) (sinQ deg2radQ : ℚ → ℚ)
    (store : List (ℚ × ℚ)) (center_ra center_dec radius : ℚ) :
    radial_query k rqit sind sinQ deg2radQ store center_ra center_dec radius
        = store.filter (fun p =>
            _radial_match k rqit sind sinQ deg2radQ p.1 p.2
              center_ra center_dec radius) ∧
    (∀ ra dec,
      _radial_match k rqit sind sinQ deg2radQ ra dec center_ra center_dec radius
          = true ↔
        ((∃ j < 50,
            rqit center_ra center_dec radius (2 * j) 1 ≤ (ang2ipix k ra dec : ℤ) ∧
              (ang2ipix k ra dec : ℤ) < rqit center_ra center_dec radius (2 * j + 1) 1) ∨
          (∃ j < 50,
            rqit center_ra center_dec radius (2 * j) 0 ≤ (ang2ipix k ra dec : ℤ) ∧
              (ang2ipix k ra dec : ℤ) < rqit center_ra center_dec radius (2 * j + 1) 0)) ∧
        sind ra dec center_ra center_dec < sinQ (deg2radQ radius / 2) ^ 2) ∧
    radial_query k rqit sind sinQ deg2radQ [] center_ra center_dec radius = [] := by
  refine ⟨?_, ?_, rfl⟩
  · rw [radial_query, foldl_filter_append]
    simp
  · intro ra dec
    simp only [_radial_match, Bool.and_eq_true, Bool.or_eq_true, List.any_eq_true,
      List.mem_range, decide_eq_true_eq]

/-- C2: for every scheme (bin level at most 30) and every pixel id in
`[0, nbins)`, the wrapper `ipix2ang` succeeds and feeding its (ra, dec)
back through the wrapper `ang2ipix` returns the same pixel id. -/
theorem ang2ipix_ipix2ang_roundtrip (l : ℕ) (hl : l ≤ 30) (p : ℕ)
    (hp : p < nbins (q3cModel l)) :
    ipix2ang (q3cModel l) (p : ℤ) = .ok ((q3cModel l).ipix2ang (p : ℤ)) ∧
    ang2ipix (q3cModel l) ((q3cModel l).ipix2ang (p : ℤ)).1
        ((q3cModel l).ipix2ang (p : ℤ)).2 = p := by
  have hp6 : p < 6 * (2 ^ l) ^ 2 := by
    have he : nbins (q3cModel l) = (2 ^ l) ^ 2 * 6 := rfl
    omega
  obtain ⟨⟨hra0, hra360, hdec0, hdec90⟩, hround⟩ := kernel_roundtrip l p hp6
  constructor
  · rw [ipix2ang, if_neg (not_not_intro
      ⟨Int.natCast_nonneg p, by exact_mod_cast hp⟩)]
  · rw [ang2ipix, if_neg (not_not_intro
      ⟨⟨hdec0, hdec90⟩, ⟨hra0, le_of_lt hra360⟩⟩)]
    exact hround

/-- Witness for C2 at bin level 0, pixel 3. -/
theorem ang2ipix_ipix2ang_roundtrip_witness :
    ipix2ang (q3cModel 0) ((3 : ℕ) : ℤ) = .ok ((q3cModel 0).ipix2ang ((3 : ℕ) : ℤ)) ∧
    ang2ipix (q3cModel 0) ((q3cModel 0).ipix2ang ((3 : ℕ) : ℤ)).1
        ((q3cModel 0).ipix2ang ((3 : ℕ) : ℤ)).2 = 3 :=
  ang2ipix_ipix2ang_roundtrip 0 (by norm_num) 3 (by decide)

/-- C3 counterexample: inserting 120000 points performs exactly 2 in-loop
batch commits (the loop commits after every 50001 rows, because the test is
`count > 50000`), not 3. -/
theorem add_points_120000_not_three_commits :
    (add_points (List.replicate 120000 ((0:ℚ), (0:ℚ)))).commits = 2 ∧
    (add_points (List.replicate 120000 ((0:ℚ), (0:ℚ)))).commits ≠ 3 := by
  have h := add_points_closed (List.replicate 120000 ((0:ℚ), (0:ℚ)))
  rw [List.length_replicate] at h
  rw [h]
  constructor
  · show (120000:ℕ) / 50001 = 2
    norm_num
  · show (120000:ℕ) / 50001 ≠ 3
    norm_num

/-- C3 (amended): the `add_points` loop commits after every 50001 inserted
rows — the counter test is `count > 50000` — so the in-loop commit count is
`rows / 50001`; in particular 120000 points trigger exactly 2 batch commits
and all 120000 rows are present afterwards. -/
theorem add_points_batching (pts : List (ℚ × ℚ)) :
    add_points pts = ⟨pts.length, pts.length % 50001, pts.length / 50001⟩ ∧
    (pts.length = 120000 →
      (add_points pts).commits = 2 ∧ (add_points pts).rows = 120000) := by
  refine ⟨add_points_closed pts, fun h => ?_⟩
  have hc := add_points_closed pts
  rw [h] at hc
  rw [hc]
  constructor
  · show (120000:ℕ) / 50001 = 2
    norm_num
  · show (120000:ℕ) = 120000
    rfl

/-- Witness for C3 on a concrete 120000-point list. -/
theorem add_points_batching_witness :
    (add_points (List.replicate 120000 ((0:ℚ), (0:ℚ)))).commits = 2 ∧
    (add_points (List.replicate 120000 ((0:ℚ), (0:ℚ)))).rows = 120000 :=
  (add_points_batching (List.replicate 120000 ((0:ℚ), (0:ℚ)))).2
    (by rw [List.length_replicate])

/-- C4: vector input with any dec outside [-90,90] or any ra outside
[0,360] raises; scalar input never raises — an out-of-range pair is
normalized (ra wrapped into [0,360), dec reflected/clamped into [-90,90])
and then delegated to the kernel. -/
theorem ang2ipix_validation_asymmetry :
    (∀ ras decs : List ℚ,
      ((∃ d ∈ decs, d < -90 ∨ 90 < d) ∨ (∃ r ∈ ras, r < 0 ∨ 360 < r)) →
        ang2ipix_vec_check ras decs = .error .valueError) ∧
    (∀ (k : Kernel) (ra dec : ℚ),
      ¬((-90 ≤ dec ∧ dec ≤ 90) ∧ (0 ≤ ra ∧ ra ≤ 360)) →
        ang2ipix k ra dec
            = k.ang2ipix (normalizeAng ra dec).1 (normalizeAng ra dec).2 ∧
          0 ≤ (normalizeAng ra dec).1 ∧ (normalizeAng ra dec).1 < 360 ∧
          -90 ≤ (normalizeAng ra dec).2 ∧ (normalizeAng ra dec).2 ≤ 90) := by
  constructor
  · intro ras decs hbad
    rcases vec_check_cases ras decs with hok | herr
    · exfalso
      obtain ⟨hd, hr⟩ := vec_check_ok_bounds hok
      rcases hbad with ⟨d, hdmem, hout⟩ | ⟨r, hrmem, hout⟩
      · rcases hout with h | h
        · linarith [(hd d hdmem).1]
        · linarith [(hd d hdmem).2]
      · rcases hout with h | h
        · linarith [(hr r hrmem).1]
        · linarith [(hr r hrmem).2]
    · exact herr
  · intro k ra dec h
    rw [ang2ipix, if_pos h]
    exact ⟨rfl, normalizeAng_range ra dec⟩

/-- Witness for C4: vector dec = 91 raises; scalar dec = 91 delegates the
normalized pair. -/
theorem ang2ipix_validation_asymmetry_witness :
    ang2ipix_vec_check [(10:ℚ)] [(91:ℚ)] = .error .valueError ∧
    ang2ipix (q3cModel 0) 10 91
        = (q3cModel 0).ang2ipix (normalizeAng 10 91).1 (normalizeAng 10 91).2 :=
  ⟨ang2ipix_validation_asymmetry.1 [10] [91]
      (Or.inl ⟨91, by simp, Or.inr (by norm_num)⟩),
    (ang2ipix_validation_asymmetry.2 (q3cModel 0) 10 91 (by norm_num)).1⟩

/-- C5 (code bug): the scalar range test of `xy2ang` is a conjunction of
the two negations, so whenever one coordinate is in range the other may be
arbitrary — `(x, y) = (2, 0)` with face 0 is delegated to the kernel
instead of raising the `DomainError` promised by the spec and by the
code's own error message. -/
theorem xy2ang_domain_check_conjunction_bug :
    (∀ (k : Kernel) (f : ℤ) (x y : ℚ), 0 ≤ f → f ≤ 5 → -1 ≤ y → y ≤ 1 →
      xy2ang k (some f) (some x) (some y) = .ok (k.xy2ang x y f.toNat)) ∧
    xy2ang (q3cModel 0) (some 0) (some 2) (some 0)
      = .ok ((q3cModel 0).xy2ang 2 0 0) := by
  have hgen : ∀ (k : Kernel) (f : ℤ) (x y : ℚ), 0 ≤ f → f ≤ 5 → -1 ≤ y → y ≤ 1 →
      xy2ang k (some f) (some x) (some y) = .ok (k.xy2ang x y f.toNat) := by
    intro k f x y hf0 hf5 hy1 hy2
    simp only [xy2ang]
    rw [if_neg (not_not_intro ⟨hf0, hf5⟩),
      if_neg (fun hc => hc.2 ⟨hy1, hy2⟩)]
  exact ⟨hgen, hgen (q3cModel 0) 0 2 0 (by norm_num) (by norm_num)
    (by norm_num) (by norm_num)⟩

/-- Witness for C5 at the failing input (facenum 0, x = 2 out of range,
y = 0 in range): no error is raised, the kernel is called. -/
theorem xy2ang_domain_check_conjunction_bug_witness :
    xy2ang (q3cModel 0) (some 1) (some 2) (some 0)
      = .ok ((q3cModel 0).xy2ang 2 0 1) :=
  xy2ang_domain_check_conjunction_bug.1 (q3cModel 0) 1 2 0
    (by norm_num) (by norm_num) (by norm_num) (by norm_num)

/-- C6 counterexample: pixel id 6 is out of range for bin level 0
(`nbins = 6`), yet `ipix2xy` does not raise — it delegates to the kernel. -/
theorem ipix2xy_out_of_range_no_error :
    ipix2xy (q3cModel 0) 6 ≠ .error .valueError := by
  simp [ipix2xy]

/-- C6 (amended): `ipix2xy` performs no bounds check in the Python layer —
it always returns the kernel's answer — and for in-range pixel ids the
result is the face number (at most 5) and the lower-left corner of the
pixel's cell: each corner coordinate lies in `[-1, 1 - 2/nside]`, and
`ipix2ang` of the same pixel is the chart image of that corner shifted by
half a cell. -/
theorem ipix2xy_no_bounds_check (l : ℕ) (i : ℤ) (h0 : 0 ≤ i)
    (hn : i < (nbins (q3cModel l) : ℤ)) :
    ipix2xy (q3cModel l) i = .ok ((q3cModel l).ipix2xy i) ∧
    ((q3cModel l).ipix2xy i).1 ≤ 5 ∧
    -1 ≤ ((q3cModel l).ipix2xy i).2.1 ∧
    ((q3cModel l).ipix2xy i).2.1 + 2 / ((2 ^ l : ℕ) : ℚ) ≤ 1 ∧
    -1 ≤ ((q3cModel l).ipix2xy i).2.2 ∧
    ((q3cModel l).ipix2xy i).2.2 + 2 / ((2 ^ l : ℕ) : ℚ) ≤ 1 ∧
    (q3cModel l).ipix2ang i
      = chartInv ((q3cModel l).ipix2xy i).1
          (((q3cModel l).ipix2xy i).2.1 + 1 / ((2 ^ l : ℕ) : ℚ))
          (((q3cModel l).ipix2xy i).2.2 + 1 / ((2 ^ l : ℕ) : ℚ)) := by
  have hn2 : (0:ℤ) < 6 * ((2 ^ l : ℕ) : ℤ) ^ 2 := by positivity
  have hcast : ((6 * (2 ^ l) ^ 2 : ℕ) : ℤ) = 6 * ((2 ^ l : ℕ) : ℤ) ^ 2 := by
    push_cast
    ring
  have hmlt : ((i % (6 * ((2 ^ l : ℕ) : ℤ) ^ 2)).toNat) < 6 * (2 ^ l) ^ 2 := by
    have h := Int.emod_lt_of_pos i hn2
    have h2 := Int.emod_nonneg i (ne_of_gt hn2)
    rw [← hcast] at h h2 ⊢
    omega
  set m : ℕ := (i % (6 * ((2 ^ l : ℕ) : ℤ) ^ 2)).toNat with hm
  have hxy : (q3cModel l).ipix2xy i =
      (m / (2 ^ l) ^ 2,
        (2 * ((unmorton l (m % (2 ^ l) ^ 2)).1 : ℚ)) / ((2 ^ l : ℕ) : ℚ) - 1,
        (2 * ((unmorton l (m % (2 ^ l) ^ 2)).2 : ℚ)) / ((2 ^ l : ℕ) : ℚ) - 1) := rfl
  obtain ⟨hu1, hu2⟩ := unmorton_lt l (m % (2 ^ l) ^ 2)
  have hnq : (0:ℚ) < ((2 ^ l : ℕ) : ℚ) := by positivity
  have corner : ∀ j : ℕ, j < 2 ^ l →
      -1 ≤ (2 * (j : ℚ)) / ((2 ^ l : ℕ) : ℚ) - 1 ∧
      (2 * (j : ℚ)) / ((2 ^ l : ℕ) : ℚ) - 1 + 2 / ((2 ^ l : ℕ) : ℚ) ≤ 1 := by
    intro j hj
    have hj1 : (j : ℚ) + 1 ≤ ((2 ^ l : ℕ) : ℚ) := by exact_mod_cast hj
    constructor
    · have : (0:ℚ) ≤ (2 * (j : ℚ)) / ((2 ^ l : ℕ) : ℚ) := by positivity
      linarith
    · have h2j : (2 * (j : ℚ) + 2) / ((2 ^ l : ℕ) : ℚ) ≤ 2 := by
        rw [div_le_iff hnq]
        linarith
      have he : (2 * (j : ℚ)) / ((2 ^ l : ℕ) : ℚ) - 1 + 2 / ((2 ^ l : ℕ) : ℚ)
          = (2 * (j : ℚ) + 2) / ((2 ^ l : ℕ) : ℚ) - 1 := by
        field_simp
        ring
      rw [he]
      linarith
  refine ⟨rfl, ?_, ?_, ?_, ?_, ?_, rfl⟩
  · rw [hxy]
    show m / (2 ^ l) ^ 2 ≤ 5
    have : m / (2 ^ l) ^ 2 < 6 :=
      (Nat.div_lt_iff_lt_mul (by positivity)).mpr (by omega)
    omega
  · rw [hxy]
    exact (corner _ hu1).1
  · rw [hxy]
    exact (corner _ hu1).2
  · rw [hxy]
    exact (corner _ hu2).1
  · rw [hxy]
    exact (corner _ hu2).2

/-- Witness for C6 at bin level 0, pixel 4. -/
theorem ipix2xy_no_bounds_check_witness :
    ipix2xy (q3cModel 0) 4 = .ok ((q3cModel 0).ipix2xy 4) ∧
    ((q3cModel 0).ipix2xy 4).1 ≤ 5 ∧
    -1 ≤ ((q3cModel 0).ipix2xy 4).2.1 ∧
    ((q3cModel 0).ipix2xy 4).2.1 + 2 / ((2 ^ 0 : ℕ) : ℚ) ≤ 1 ∧
    -1 ≤ ((q3cModel 0).ipix2xy 4).2.2 ∧
    ((q3cModel 0).ipix2xy 4).2.2 + 2 / ((2 ^ 0 : ℕ) : ℚ) ≤ 1 ∧
    (q3cModel 0).ipix2ang 4
      = chartInv ((q3cModel 0).ipix2xy 4).1
          (((q3cModel 0).ipix2xy 4).2.1 + 1 / ((2 ^ 0 : ℕ) : ℚ))
          (((q3cModel 0).ipix2xy 4).2.2 + 1 / ((2 ^ 0 : ℕ) : ℚ)) :=
  ipix2xy_no_bounds_check 0 4 (by decide) (by decide)

/-- C7 (code bug): assigning `None` to `data_source` raises `NameError`
(the setter's `elif` chain evaluates the unbound name `numpy`; the module
imports it as `np`), not the `ConfigurationError`/`ValueError` of the
spec; the stored data source is unchanged because the error fires before
any assignment. -/
theorem data_source_none_raises_nameerror (cur : DSValue) :
    data_source_set cur .noneVal = .error .nameError ∧
    data_source_set cur .noneVal ≠ .error .valueError := by
  constructor
  · rfl
  · simp [data_source_set, numpyNameBound]

/-- C8: `ipixcenter` raises for depth outside [1,30]; for depth in [1,30]
it returns the center transformation of the raw kernel pixel id, and that
transformation is idempotent at the same depth. -/
theorem ipixcenter_depth_and_idempotence (k : Kernel) (ra dec : ℚ) (depth : ℤ) :
    (¬(1 ≤ depth ∧ depth ≤ 30) → ipixcenter k ra dec depth = .error .valueError) ∧
    (1 ≤ depth → depth ≤ 30 →
      ipixcenter k ra dec depth = .ok (centerShift (k.ang2ipix ra dec) depth.toNat) ∧
      ∀ i : ℕ, centerShift (centerShift i depth.toNat) depth.toNat
          = centerShift i depth.toNat) := by
  refine ⟨fun h => by rw [ipixcenter, if_pos h], fun h1 h30 => ⟨?_, fun i => ?_⟩⟩
  · rw [ipixcenter, if_neg (not_not_intro ⟨h1, h30⟩)]
  · exact centerShift_idem i depth.toNat (by omega)

/-- Witness for C8: depth 31 raises; the center transformation at depth 2
is idempotent on pixel id 1000. -/
theorem ipixcenter_depth_and_idempotence_witness :
    ipixcenter (q3cModel 0) 0 0 31 = .error .valueError ∧
    centerShift (centerShift 1000 2) 2 = centerShift 1000 2 :=
  ⟨(ipixcenter_depth_and_idempotence (q3cModel 0) 0 0 31).1 (by omega),
    ((ipixcenter_depth_and_idempotence (q3cModel 0) 0 0 2).2 (by omega)
        (by omega)).2 1000⟩

/-- C9 (code bug): with `duplicate_endpoint=True`, `ipix2polygon` builds
the closed 5-vertex ring and then (lines 367–368) strips the last vertex
again, so the call returns 4 vertices, not the 5 its docstring and the
spec promise. -/
theorem ipix2polygon_dup_returns_four :
    (ipix2polygon (q3cModel 0) (some 0) true).map List.length = .ok 4 ∧
    (ipix2polygon (q3cModel 0) (some 0) false).map List.length = .ok 4 := by
  constructor
  · rfl
  · rfl

/-- C10 counterexample: `face_number` called with `ipix=0` and no `ra`,
`dec` fails with `TypeError` (the truthiness test skips the pixel branch
and `dec=None` is compared against a bound), not with the `ValueError`
"ra and dec are required" the claim states. -/
theorem face_number_ipix_zero_not_valueerror :
    face_number (q3cModel 0) none none (some 0) = .error .typeError ∧
    face_number (q3cModel 0) none none (some 0) ≠ .error .valueError := by
  constructor
  · rfl
  · intro h
    simp [face_number, face_number_radec, truthyInt] at h

/-- C10 (amended): `ipix=0` is tested by truthiness, so the pixel-id
branch is skipped and the call fails with `TypeError`; for every pixel id
in `[1, nbins)` the pixel-id branch is taken and a face number in [0,5] is
returned. -/
theorem face_number_truthiness (l : ℕ) :
    face_number (q3cModel l) none none (some 0) = .error .typeError ∧
    (∀ i : ℤ, 1 ≤ i → i < (nbins (q3cModel l) : ℤ) →
      ∃ f : ℕ, face_number (q3cModel l) none none (some i) = .ok f ∧ f ≤ 5) := by
  constructor
  · rfl
  · intro i h1 hn
    have hne : i ≠ 0 := by omega
    refine ⟨((q3cModel l).facenum ((q3cModel l).ipix2ang i).1
      ((q3cModel l).ipix2ang i).2), ?_, ang2fxy_fst_le _ _⟩
    rw [face_number]
    rw [if_neg (by simp), if_neg (by simp)]
    rw [if_pos hne, if_neg (not_not_intro ⟨by omega, hn⟩)]
    rw [ipix2ang, if_neg (not_not_intro ⟨by omega, hn⟩)]

/-- Witness for C10 at bin level 0, pixel 3. -/
theorem face_number_truthiness_witness :
    ∃ f : ℕ, face_number (q3cModel 0) none none (some 3) = .ok f ∧ f ≤ 5 :=
  (face_number_truthiness 0).2 3 (by omega) (by decide)
